import Mathlib

/-! Verification of the margin-account ledger and order-matching engine
(`src/core/primitives/account.rs` and `src/core/market/order_book.rs`).

Machine integers (`u64`, `u16`) are modelled as `Nat`.  Rust's unchecked
`-` and `/` are modelled as checked operations: a subtraction that would
underflow, or a division by zero, yields `none` / `.crash`, marking the
point where the Rust program panics (debug build) or wraps (release
build) instead of following the documented behaviour.  `saturating_sub`
is Nat truncated subtraction, exactly as in the source.  Fallible
operations on `&mut self` that `bail!` return the partially mutated
account alongside the error, matching how a Rust caller observes the
account after an early `?` return.
-/

set_option maxRecDepth 8000

namespace Nomic

def PRICE_PRECISION : Nat := 100000000

def LEVERAGE_PRECISION : Nat := 100

def MAX_LEVERAGE : Nat := 100 * LEVERAGE_PRECISION

def SATOSHIS_PER_BITCOIN : Nat := 100000000

def U64_MAX : Nat := 2 ^ 64 - 1

inductive Direction where
  | long
  | short
deriving DecidableEq, Repr

/-- Modelled from the spec: `Direction::other` is referenced by
`Account::fill_order` and the transaction handlers but its definition is
not among the provided sources; the spec says the taker takes the side
opposite to the maker, so `other` swaps `Long` and `Short`. -/
def Direction.other : Direction → Direction
  | .long => .short
  | .short => .long

structure Order where
  price : Nat
  creator : Nat
  height : Nat
  size : Nat
deriving DecidableEq, Repr

/-- Rust `Order::cost`: `size * SATOSHIS_PER_BITCOIN / price`; division by a
zero price panics in Rust, modelled as `none`. -/
def Order.cost (o : Order) : Option Nat :=
  if o.price = 0 then none
  else some (o.size * SATOSHIS_PER_BITCOIN / o.price)

structure Account where
  nonce : Nat
  balance : Nat
  order_margin : Nat
  max_bid_margin : Nat
  max_ask_margin : Nat
  size : Nat
  side : Direction
  entry_price : Nat
  position_margin : Nat
  desired_leverage : Nat
deriving DecidableEq, Repr

/-- Rust `Account::new` (via `Default`).  Modelled from the spec: the
`Direction::default()` implementation is not among the provided sources;
the spec only says a fresh account is flat with all fields at
zero/default, so the default side is modelled as `Long` (no claim
depends on this choice). -/
def Account.new (balance : Nat) : Account :=
  { nonce := 0
    balance := balance
    order_margin := 0
    max_bid_margin := 0
    max_ask_margin := 0
    size := 0
    side := .long
    entry_price := 0
    position_margin := 0
    desired_leverage := LEVERAGE_PRECISION }

/-- Result of a fallible account operation.  `insufficientFunds` carries
the (possibly partially mutated) account the caller's `&mut` reference
still holds after the `bail!`; `crash` marks an arithmetic panic. -/
inductive AccRes (α : Type) where
  | ok (val : α) (acc : Account)
  | insufficientFunds (acc : Account)
  | crash
deriving DecidableEq, Repr

/-- Rust `Account::value`. -/
def Account.value (a : Account) : Option Nat :=
  if a.size = 0 then some 0
  else if a.entry_price = 0 then none
  else some (a.size * SATOSHIS_PER_BITCOIN / a.entry_price)

/-- Rust `Account::divide_by_leverage`. -/
def Account.divide_by_leverage (a : Account) (n : Nat) : Option Nat :=
  if a.desired_leverage = 0 then none
  else some (n * PRICE_PRECISION * LEVERAGE_PRECISION / a.desired_leverage / PRICE_PRECISION)

/-- Rust `Account::update_order_margin`. -/
def Account.update_order_margin (a : Account) : AccRes Nat :=
  match a.divide_by_leverage a.max_bid_margin, a.divide_by_leverage a.max_ask_margin with
  | some mb, some ma =>
    -- saturating_sub is Nat truncated subtraction
    let max_bid := match a.side with | .long => mb | .short => mb - a.position_margin
    let max_ask := match a.side with | .long => ma - a.position_margin | .short => ma
    let new_om := max_bid + max_ask
    if a.order_margin < new_om then
      let to_lock := new_om - a.order_margin
      if a.balance < to_lock then .insufficientFunds a
      else .ok 0 { a with balance := a.balance - to_lock
                          order_margin := a.order_margin + to_lock }
    else
      let to_unlock := a.order_margin - new_om
      .ok to_unlock { a with order_margin := a.order_margin - to_unlock }
  | _, _ => .crash

/-- Rust `Account::update_position_margin`. -/
def Account.update_position_margin (a : Account) : AccRes Nat :=
  match a.value with
  | none => .crash
  | some v =>
    match a.divide_by_leverage v with
    | none => .crash
    | some new_margin =>
      if a.position_margin < new_margin then
        let margin_change := new_margin - a.position_margin
        if a.balance < margin_change then .insufficientFunds a
        else .ok 0 { a with balance := a.balance - margin_change
                            position_margin := a.position_margin + margin_change }
      else
        let margin_change := a.position_margin - new_margin
        .ok margin_change { a with position_margin := a.position_margin - margin_change }

/-- Rust `Account::create_order`.  The `debug_assert_eq!` on the unlocked
amount is not part of release semantics and is omitted. -/
def Account.create_order (a : Account) (side : Direction) (order : Order) : AccRes Unit :=
  match order.cost with
  | none => .crash
  | some c =>
    let a1 := match side with
      | .long => { a with max_bid_margin := a.max_bid_margin + c }
      | .short => { a with max_ask_margin := a.max_ask_margin + c }
    match a1.update_order_margin with
    | .ok _ a2 => .ok () a2
    | .insufficientFunds a2 => .insufficientFunds a2
    | .crash => .crash

/-- Rust `Account::add_to_position`. -/
def Account.add_to_position (a : Account) (size : Nat) (side : Direction) : Account :=
  if side = a.side then { a with size := a.size + size }
  else if a.size < size then { a with size := size - a.size, side := side }
  else { a with size := a.size - size }

/-- Rust `Account::update_entry_price`.  A zero combined size would divide by
zero in Rust, modelled as `none`. -/
def Account.update_entry_price (a : Account) (order : Order)
    (position_increasing : Bool) : Option Account :=
  let position_reversing := !position_increasing && decide (a.size < order.size)
  match position_increasing, position_reversing with
  | true, _ =>
    let new_size := order.size + a.size
    if new_size = 0 then none
    else
      let w := PRICE_PRECISION * order.size / new_size
      some { a with entry_price :=
        (w * order.price + (PRICE_PRECISION - w) * a.entry_price) / PRICE_PRECISION }
  | false, false => some a
  | false, true => some { a with entry_price := order.price }

/-- Rust `Account::add_pnl`.  The subtractions computing profit or loss and
the debit `self.balance -= loss` are unchecked `u64` arithmetic in the
source; an underflow (and a division by a zero price or entry price) is
modelled as `none`. -/
def Account.add_pnl (a : Account) (prev : Account) (price : Nat) : Option Account :=
  let amount_reduced :=
    if a.side ≠ prev.side then prev.size
    else if prev.size < a.size then 0
    else prev.size - a.size
  if amount_reduced = 0 then some a
  else
    let amount_reduced_sats := amount_reduced * SATOSHIS_PER_BITCOIN
    if price = 0 then none
    else if prev.entry_price = 0 then none
    else
      match prev.side with
      | .long =>
        let to_pay := amount_reduced_sats / price
        let to_receive := amount_reduced_sats / prev.entry_price
        if prev.entry_price < price then
          if to_receive < to_pay then none
          else some { a with balance := a.balance + (to_receive - to_pay) }
        else
          if a.balance < to_pay - to_receive then none
          else some { a with balance := a.balance - (to_pay - to_receive) }
      | .short =>
        let to_pay := amount_reduced_sats / prev.entry_price
        let to_receive := amount_reduced_sats / price
        if price < prev.entry_price then
          if to_receive < to_pay then none
          else some { a with balance := a.balance + (to_receive - to_pay) }
        else
          if a.balance < to_pay - to_receive then none
          else some { a with balance := a.balance - (to_pay - to_receive) }

/-- The `if is_own_order` block of `Account::fill_order`: release the
consumed order's reserved notional from the max bid/ask margin
(unchecked `-=` in the source), then rebalance the order margin and
route any unlocked funds to `position_margin` or `balance`.  Split into
a helper (`fill_own_margin_route`) for the part after the release. -/
def Account.fill_own_margin_route (a1 : Account) : AccRes Unit :=
  match a1.value with
  | none => .crash
  | some v =>
    match a1.divide_by_leverage v with
    | none => .crash
    | some new_margin =>
      let margin_increasing := a1.position_margin < new_margin
      match a1.update_order_margin with
      | .crash => .crash
      | .insufficientFunds a2 => .insufficientFunds a2
      | .ok unlocked a2 =>
        if margin_increasing then
          .ok () { a2 with position_margin := a2.position_margin + unlocked }
        else
          .ok () { a2 with balance := a2.balance + unlocked }

/-- See `Account.fill_own_margin_route`. -/
def Account.fill_own_margin (a : Account) (maker_side : Direction)
    (maker_order : Order) : AccRes Unit :=
  match maker_order.cost with
  | none => .crash
  | some c =>
    match maker_side with
    | .long =>
      if a.max_bid_margin < c then .crash
      else Account.fill_own_margin_route { a with max_bid_margin := a.max_bid_margin - c }
    | .short =>
      if a.max_ask_margin < c then .crash
      else Account.fill_own_margin_route { a with max_ask_margin := a.max_ask_margin - c }

/-- The tail of `Account::fill_order`:
`self.balance += self.update_position_margin()?; self.add_pnl(prev_self, maker_order.price)`. -/
def Account.fill_order_settle (prev_self : Account) (price : Nat) (a3 : Account) : AccRes Unit :=
  match a3.update_position_margin with
  | .crash => .crash
  | .insufficientFunds a4 => .insufficientFunds a4
  | .ok freed a4 =>
    let a5 := { a4 with balance := a4.balance + freed }
    match a5.add_pnl prev_self price with
    | none => .crash
    | some a6 => .ok () a6

/-- Rust `Account::fill_order`. -/
def Account.fill_order (a0 : Account) (maker_side : Direction) (maker_order : Order)
    (is_own_order : Bool) : AccRes Unit :=
  let a := if a0.size = 0 then
      { a0 with side := if is_own_order then maker_side else maker_side.other }
    else a0
  let prev_self := a
  let position_increasing := decide (maker_side = a.side) && is_own_order
  match a.update_entry_price maker_order position_increasing with
  | none => .crash
  | some a1 =>
    let a2 := a1.add_to_position maker_order.size
      (if is_own_order then maker_side else maker_side.other)
    if is_own_order then
      match a2.fill_own_margin maker_side maker_order with
      | .crash => .crash
      | .insufficientFunds a3 => .insufficientFunds a3
      | .ok _ a3 => Account.fill_order_settle prev_self maker_order.price a3
    else Account.fill_order_settle prev_self maker_order.price a2

/-- Rust `Account::adjust_leverage`.  The two `debug_assert!` bounds checks
are not part of release semantics and are omitted; the source performs
no other validation of `leverage`. -/
def Account.adjust_leverage (a : Account) (leverage : Nat) : AccRes Unit :=
  let a1 := { a with desired_leverage := leverage }
  match a1.update_position_margin with
  | .crash => .crash
  | .insufficientFunds a2 => .insufficientFunds a2
  | .ok freed a2 =>
    let a3 := { a2 with balance := a2.balance + freed }
    match a3.update_order_margin with
    | .crash => .crash
    | .insufficientFunds a4 => .insufficientFunds a4
    | .ok freed' a4 => .ok () { a4 with balance := a4.balance + freed' }

/-! Order book (`order_book.rs`).

The backing `orga` `Map` is an ordered key-value store iterated in key
order; it is modelled as an association list kept strictly sorted by the
lexicographic order on `(price, creator, height)` (fixed-width
big-endian byte encoding of the key fields makes byte order coincide
with this order).  Addresses (`[u8; 33]`) are modelled as `Nat`, whose
order coincides with byte-lexicographic order at fixed width. -/

structure OrderKey where
  price : Nat
  creator : Nat
  height : Nat
deriving DecidableEq, Repr

structure OrderValue where
  size : Nat
deriving DecidableEq, Repr

/-- Lexicographic order on encoded keys. -/
def OrderKey.lt (k1 k2 : OrderKey) : Prop :=
  k1.price < k2.price ∨ (k1.price = k2.price ∧
    (k1.creator < k2.creator ∨ (k1.creator = k2.creator ∧ k1.height < k2.height)))

instance (k1 k2 : OrderKey) : Decidable (OrderKey.lt k1 k2) := by
  unfold OrderKey.lt
  infer_instance

abbrev EntryList := List (OrderKey × OrderValue)

/-- Rust `Map::insert`: overwrite the value at `k` if present, otherwise
insert at the sorted position. -/
def mapInsert (k : OrderKey) (v : OrderValue) : EntryList → EntryList
  | [] => [(k, v)]
  | e :: rest =>
    if OrderKey.lt k e.1 then (k, v) :: e :: rest
    else if k = e.1 then (k, v) :: rest
    else e :: mapInsert k v rest

/-- Rust `Map::delete`: remove the entry keyed `k` if present. -/
def mapDelete (k : OrderKey) : EntryList → EntryList
  | [] => []
  | e :: rest => if k = e.1 then rest else e :: mapDelete k rest

/-- Rust `<Bid as Entry>::into_entry`: bids store the price inverted so that
ascending key iteration yields descending price. -/
def Bid.into_entry (o : Order) : OrderKey × OrderValue :=
  (⟨U64_MAX - o.price, o.creator, o.height⟩, ⟨o.size⟩)

/-- Rust `<Bid as Entry>::from_entry`. -/
def Bid.from_entry (e : OrderKey × OrderValue) : Order :=
  ⟨U64_MAX - e.1.price, e.1.creator, e.1.height, e.2.size⟩

/-- Rust `<Ask as Entry>::into_entry`. -/
def Ask.into_entry (o : Order) : OrderKey × OrderValue :=
  (⟨o.price, o.creator, o.height⟩, ⟨o.size⟩)

/-- Rust `<Ask as Entry>::from_entry`. -/
def Ask.from_entry (e : OrderKey × OrderValue) : Order :=
  ⟨e.1.price, e.1.creator, e.1.height, e.2.size⟩

structure PlaceResult where
  total_fill_size : Nat
  fills : List Order
deriving DecidableEq, Repr

inductive Side where
  | buy
  | sell
deriving DecidableEq, Repr

structure OrderBookState where
  bids : EntryList
  asks : EntryList
deriving DecidableEq, Repr

/-- The iteration loop of `match_orders`, accumulating the result, the
orders to delete and the (at most one) size-reduced order to reinsert;
mutations are deferred until after the scan, as in the source. -/
def matchLoop (fromE : OrderKey × OrderValue → Order) (size : Nat) (creator : Nat)
    (side : Side) (price : Option Nat) :
    EntryList → PlaceResult → List Order → Option Order →
    PlaceResult × List Order × Option Order
  | [], result, toDelete, toInsert => (result, toDelete, toInsert)
  | e :: rest, result, toDelete, toInsert =>
    let next_order := fromE e
    let remaining_size := size - result.total_fill_size
    let stop := match side, price with
      | .buy, some p => decide (p < next_order.price)
      | .sell, some p => decide (next_order.price < p)
      | _, none => false
    if stop then (result, toDelete, toInsert)
    else if next_order.creator = creator then
      matchLoop fromE size creator side price rest result toDelete toInsert
    else if next_order.size ≤ remaining_size then
      -- Completely filling the resting order, removing it from the book.
      let result' : PlaceResult :=
        ⟨result.total_fill_size + next_order.size, result.fills ++ [next_order]⟩
      let toDelete' := toDelete ++ [next_order]
      if size = result'.total_fill_size then (result', toDelete', toInsert)
      else matchLoop fromE size creator side price rest result' toDelete' toInsert
    else
      -- Partially filling the resting order, updating it on the book.
      let pfill := { next_order with size := remaining_size }
      let result' : PlaceResult :=
        ⟨result.total_fill_size + remaining_size, result.fills ++ [pfill]⟩
      let updated := { next_order with size := next_order.size - remaining_size }
      if size = result'.total_fill_size then (result', toDelete, some updated)
      else matchLoop fromE size creator side price rest result' toDelete (some updated)

/-- Rust `match_orders`, generic over the `Entry` projection of the side
being matched (`Bid` or `Ask`). -/
def matchOrders (intoE : Order → OrderKey × OrderValue)
    (fromE : OrderKey × OrderValue → Order) (orders : EntryList) (size : Nat)
    (creator : Nat) (side : Side) (price : Option Nat) : PlaceResult × EntryList :=
  let scan := matchLoop fromE size creator side price orders ⟨0, []⟩ [] none
  let afterDelete := scan.2.1.foldl (fun m o => mapDelete (intoE o).1 m) orders
  let afterInsert := match scan.2.2 with
    | none => afterDelete
    | some o => mapInsert (intoE o).1 (intoE o).2 afterDelete
  (scan.1, afterInsert)

/-- Rust `OrderBookState::place_limit_sell`. -/
def OrderBookState.place_limit_sell (st : OrderBookState) (size : Nat) (creator : Nat)
    (price : Nat) (height : Nat) : PlaceResult × OrderBookState :=
  let r := matchOrders Bid.into_entry Bid.from_entry st.bids size creator .sell (some price)
  let e := Ask.into_entry ⟨price, creator, height, size - r.1.total_fill_size⟩
  (r.1, { bids := r.2, asks := mapInsert e.1 e.2 st.asks })

/-- Rust `OrderBookState::place_limit_buy`. -/
def OrderBookState.place_limit_buy (st : OrderBookState) (size : Nat) (creator : Nat)
    (price : Nat) (height : Nat) : PlaceResult × OrderBookState :=
  let r := matchOrders Ask.into_entry Ask.from_entry st.asks size creator .buy (some price)
  let e := Bid.into_entry ⟨price, creator, height, size - r.1.total_fill_size⟩
  (r.1, { bids := mapInsert e.1 e.2 st.bids, asks := r.2 })

/-- Rust `OrderBookState::place_market_buy`. -/
def OrderBookState.place_market_buy (st : OrderBookState) (size : Nat)
    (creator : Nat) : PlaceResult × OrderBookState :=
  let r := matchOrders Ask.into_entry Ask.from_entry st.asks size creator .buy none
  (r.1, { st with asks := r.2 })

/-- Rust `OrderBookState::place_market_sell`. -/
def OrderBookState.place_market_sell (st : OrderBookState) (size : Nat)
    (creator : Nat) : PlaceResult × OrderBookState :=
  let r := matchOrders Bid.into_entry Bid.from_entry st.bids size creator .sell none
  (r.1, { st with bids := r.2 })

/-- Rust `EntryMap::<Bid>::insert`. -/
def insertBid (o : Order) (m : EntryList) : EntryList :=
  mapInsert (Bid.into_entry o).1 (Bid.into_entry o).2 m

/-- Rust `EntryMap::<Ask>::insert`. -/
def insertAsk (o : Order) (m : EntryList) : EntryList :=
  mapInsert (Ask.into_entry o).1 (Ask.into_entry o).2 m

def emptyBook : OrderBookState := ⟨[], []⟩

-- Sanity checks replaying the unit tests of `account.rs`.

example :
    (Account.new 100000000).create_order .long ⟨100, 2, 42, 1⟩ =
      .ok () { Account.new 100000000 with
                balance := 99000000, order_margin := 1000000, max_bid_margin := 1000000 } := by
  decide

example :
    ({ Account.new 0 with size := 50000, side := .long }).add_pnl
      { Account.new 0 with entry_price := 100000, size := 100000, side := .long } 200000 =
      some { Account.new 0 with size := 50000, side := .long, balance := 25000000 } := by
  decide

example :
    ({ Account.new 25000000 with size := 50000, side := .short }).add_pnl
      { Account.new 0 with entry_price := 100000, size := 100000, side := .short } 200000 =
      some { Account.new 0 with size := 50000, side := .short, balance := 0 } := by
  decide

-- Sanity checks replaying the unit tests of `order_book.rs`.

example :
    (([⟨10000, 2, 42, 10⟩, ⟨11000, 2, 42, 10⟩,
       ⟨9000, 2, 42, 10⟩] : List Order).foldl (fun m o => insertBid o m) []).map
        Bid.from_entry =
      [⟨11000, 2, 42, 10⟩, ⟨10000, 2, 42, 10⟩, ⟨9000, 2, 42, 10⟩] := by
  decide

example :
    (([⟨10000, 2, 42, 10⟩, ⟨11000, 2, 42, 10⟩,
       ⟨9000, 2, 42, 10⟩] : List Order).foldl (fun m o => insertAsk o m) []).map
        Ask.from_entry =
      [⟨9000, 2, 42, 10⟩, ⟨10000, 2, 42, 10⟩, ⟨11000, 2, 42, 10⟩] := by
  decide

example :
    (({ emptyBook with
        asks := insertAsk ⟨30, 3, 42, 10⟩ (insertAsk ⟨10, 2, 42, 10⟩ []) }).place_market_buy
      15 4).1 = ⟨15, [⟨10, 2, 42, 10⟩, ⟨30, 3, 42, 5⟩]⟩ := by
  decide

example :
    (((emptyBook.place_limit_sell 20 2 10 42).2.place_limit_sell 20 2 12
        42).2.place_limit_buy 25 3 11 42).1 = ⟨20, [⟨10, 2, 42, 20⟩]⟩ := by
  decide

/-! Shared lemmas about the two margin rebalancers. -/

theorem update_order_margin_insufficient {a a' : Account}
    (h : a.update_order_margin = .insufficientFunds a') : a' = a := by
  unfold Account.update_order_margin at h
  split at h
  · split at h <;>
    · simp only [] at h
      split at h
      · split at h
        · injection h with h1
          exact h1.symm
        · exact absurd h (by simp)
      · exact absurd h (by simp)
  · exact absurd h (by simp)

theorem update_order_margin_ok {a : Account} {freed : Nat} {a' : Account}
    (h : a.update_order_margin = .ok freed a') :
    a'.balance + a'.order_margin + freed = a.balance + a.order_margin ∧
    a'.nonce = a.nonce ∧ a'.max_bid_margin = a.max_bid_margin ∧
    a'.max_ask_margin = a.max_ask_margin ∧ a'.size = a.size ∧ a'.side = a.side ∧
    a'.entry_price = a.entry_price ∧ a'.position_margin = a.position_margin ∧
    a'.desired_leverage = a.desired_leverage := by
  unfold Account.update_order_margin at h
  split at h
  · split at h <;>
    · simp only [] at h
      split at h
      · split at h
        · exact absurd h (by simp)
        · injection h with h1 h2
          subst h1
          subst h2
          exact ⟨by dsimp only; omega, rfl, rfl, rfl, rfl, rfl, rfl, rfl, rfl⟩
      · injection h with h1 h2
        subst h1
        subst h2
        exact ⟨by dsimp only; omega, rfl, rfl, rfl, rfl, rfl, rfl, rfl, rfl⟩
  · exact absurd h (by simp)

/-- C10: `Account::value` returns 0 for a flat account without dividing
(its division never executes, so a flat account with `entry_price = 0`
does not panic), and for a non-empty position it is
`size * SATOSHIS_PER_BITCOIN / entry_price`, truncating. -/
theorem value_flat_no_division (a : Account) :
    (a.size = 0 → a.value = some 0) ∧
    (0 < a.size → 0 < a.entry_price →
      a.value = some (a.size * SATOSHIS_PER_BITCOIN / a.entry_price)) := by
  constructor
  · intro h
    simp [Account.value, h]
  · intro h1 h2
    unfold Account.value
    rw [if_neg (by omega), if_neg (by omega)]

theorem value_flat_no_division_witness :
    (Account.new 5).value = some 0 ∧
    ({ Account.new 0 with size := 3, entry_price := 2 }).value =
      some (3 * SATOSHIS_PER_BITCOIN / 2) :=
  ⟨(value_flat_no_division (Account.new 5)).1 rfl,
   (value_flat_no_division { Account.new 0 with size := 3, entry_price := 2 }).2
     (by decide) (by decide)⟩

theorem update_position_margin_insufficient {a a' : Account}
    (h : a.update_position_margin = .insufficientFunds a') : a' = a := by
  unfold Account.update_position_margin at h
  split at h
  · exact absurd h (by simp)
  · split at h
    · exact absurd h (by simp)
    · simp only [] at h
      split at h
      · split at h
        · injection h with h1
          exact h1.symm
        · exact absurd h (by simp)
      · exact absurd h (by simp)

theorem update_position_margin_ok {a : Account} {freed : Nat} {a' : Account}
    (h : a.update_position_margin = .ok freed a') :
    a'.balance + a'.position_margin + freed = a.balance + a.position_margin ∧
    a'.nonce = a.nonce ∧ a'.max_bid_margin = a.max_bid_margin ∧
    a'.max_ask_margin = a.max_ask_margin ∧ a'.size = a.size ∧ a'.side = a.side ∧
    a'.entry_price = a.entry_price ∧ a'.order_margin = a.order_margin ∧
    a'.desired_leverage = a.desired_leverage := by
  unfold Account.update_position_margin at h
  split at h
  · exact absurd h (by simp)
  · split at h
    · exact absurd h (by simp)
    · simp only [] at h
      split at h
      · split at h
        · exact absurd h (by simp)
        · injection h with h1 h2
          subst h1
          subst h2
          exact ⟨by dsimp only; omega, rfl, rfl, rfl, rfl, rfl, rfl, rfl, rfl⟩
      · injection h with h1 h2
        subst h1
        subst h2
        exact ⟨by dsimp only; omega, rfl, rfl, rfl, rfl, rfl, rfl, rfl, rfl⟩

/-- C1 counterexample: `create_order` increments `max_bid_margin`
before `update_order_margin` performs the funds check, so when the check
fails the caller's account retains the incremented field: the account is
not left exactly as it was before the call. -/
theorem create_order_failure_mutates_account :
    (Account.new 0).create_order .long ⟨100, 2, 42, 1⟩ =
      .insufficientFunds { Account.new 0 with max_bid_margin := 1000000 } ∧
    { Account.new 0 with max_bid_margin := 1000000 } ≠ Account.new 0 := by
  decide

/-- C1 (amended): when `create_order` fails with `InsufficientFunds`,
`balance`, `order_margin` and all position fields are unchanged, but
`max_bid_margin` (for a Long order) or `max_ask_margin` (for a Short
order) retains the added order cost.  (The handler discards the mutated
copy on error, so the persisted account state is unchanged.) -/
theorem create_order_insufficient_funds (a a' : Account) (side : Direction) (o : Order)
    (h : a.create_order side o = .insufficientFunds a') :
    a'.balance = a.balance ∧ a'.order_margin = a.order_margin ∧
    a'.size = a.size ∧ a'.side = a.side ∧ a'.entry_price = a.entry_price ∧
    a'.position_margin = a.position_margin ∧
    a'.desired_leverage = a.desired_leverage ∧ a'.nonce = a.nonce ∧
    (side = .long →
      a'.max_bid_margin = a.max_bid_margin + o.size * SATOSHIS_PER_BITCOIN / o.price ∧
      a'.max_ask_margin = a.max_ask_margin) ∧
    (side = .short →
      a'.max_ask_margin = a.max_ask_margin + o.size * SATOSHIS_PER_BITCOIN / o.price ∧
      a'.max_bid_margin = a.max_bid_margin) := by
  unfold Account.create_order Order.cost at h
  split at h
  · exact absurd h (by simp)
  next c hc =>
    rw [if_neg] at hc
    · injection hc with hc
      subst hc
      cases side <;>
      · simp only [] at h
        split at h
        · exact absurd h (by simp)
        next a2 heq =>
          injection h with h1
          have h2 := update_order_margin_insufficient heq
          subst h2
          subst h1
          simp
        · exact absurd h (by simp)
    · intro hz
      rw [if_pos hz] at hc
      exact Option.noConfusion hc

theorem create_order_insufficient_funds_witness :
    ((Account.new 0).create_order .long ⟨200, 2, 42, 1⟩ =
        .insufficientFunds { Account.new 0 with max_bid_margin := 500000 }) ∧
    ({ Account.new 0 with max_bid_margin := 500000 }).max_bid_margin =
      (Account.new 0).max_bid_margin + 1 * SATOSHIS_PER_BITCOIN / 200 :=
  ⟨by decide, ((create_order_insufficient_funds (Account.new 0)
      { Account.new 0 with max_bid_margin := 500000 } .long ⟨200, 2, 42, 1⟩
      (by decide)).2.2.2.2.2.2.2.2.1 rfl).1⟩

/-- C3 failing input: a 100x-leveraged long of 100 at entry price 1000
with zero free balance, reduced to flat by a taker fill at price 500.
The position margin freed by `update_position_margin` credits only
100000 to `balance`, but the realized loss is 10000000, and the debit
`self.balance -= loss` in `add_pnl` performs no funds check: it
underflows `u64` (panic in a debug build, wrap in release) instead of
failing with `InsufficientFunds` and leaving the account unmodified. -/
def c3Account : Account :=
  { nonce := 0, balance := 0, order_margin := 0, max_bid_margin := 0,
    max_ask_margin := 0, size := 100, side := .long, entry_price := 1000,
    position_margin := 100000, desired_leverage := 10000 }

/-- C3: evaluating `fill_order` at the failing input reaches the
unchecked loss debit with `loss = 10000000 > balance = 100000`, an
arithmetic underflow (`crash`) rather than an `InsufficientFunds`
error: the loss debit in PnL realization is not guarded by a balance
check, so the claimed no-underflow property fails. -/
theorem fill_order_pnl_loss_underflow :
    c3Account.fill_order .long ⟨500, 7, 42, 100⟩ false = .crash ∧
    ({ c3Account with size := 0, position_margin := 0, balance := 100000 }).add_pnl
      c3Account 500 = none ∧
    100000 * SATOSHIS_PER_BITCOIN / 500 - 100 * SATOSHIS_PER_BITCOIN / 1000 >
      100000 := by
  decide

/-- C9 counterexample: `adjust_leverage` contains only `debug_assert!`
bounds checks, so an out-of-bounds leverage (here `MAX_LEVERAGE + 1`,
i.e. 100.01x) is accepted and stored rather than rejected with an
`InvalidLeverage` error. -/
theorem adjust_leverage_out_of_bounds_accepted :
    (Account.new 0).adjust_leverage (MAX_LEVERAGE + 1) =
      .ok () { Account.new 0 with desired_leverage := MAX_LEVERAGE + 1 } := by
  decide

/-- C9 (amended): `adjust_leverage` performs no bounds check in release
semantics (the source has only `debug_assert!`s and never returns an
`InvalidLeverage` error); for any leverage value, on success it stores
the new `desired_leverage`, re-runs both margin rebalancers, and credits
freed collateral back to `balance`, conserving
`balance + order_margin + position_margin` and leaving the position
untouched. -/
theorem adjust_leverage_no_bounds_check (a a' : Account) (lev : Nat)
    (h : a.adjust_leverage lev = .ok () a') :
    a'.desired_leverage = lev ∧
    a'.balance + a'.order_margin + a'.position_margin =
      a.balance + a.order_margin + a.position_margin ∧
    a'.size = a.size ∧ a'.side = a.side ∧ a'.entry_price = a.entry_price ∧
    a'.nonce = a.nonce ∧ a'.max_bid_margin = a.max_bid_margin ∧
    a'.max_ask_margin = a.max_ask_margin := by
  unfold Account.adjust_leverage at h
  simp only [] at h
  split at h
  · exact absurd h (by simp)
  · exact absurd h (by simp)
  next freed a2 heq =>
    have h2 := update_position_margin_ok heq
    split at h
    · exact absurd h (by simp)
    · exact absurd h (by simp)
    next freed' a4 heq' =>
      have h4 := update_order_margin_ok heq'
      injection h with h1 h1'
      subst h1'
      simp only [Account.balance, Account.order_margin, Account.position_margin,
        Account.size, Account.side, Account.entry_price, Account.nonce,
        Account.max_bid_margin, Account.max_ask_margin,
        Account.desired_leverage] at *
      obtain ⟨e1, e2, e3, e4, e5, e6, e7, e8, e9⟩ := h2
      obtain ⟨f1, f2, f3, f4, f5, f6, f7, f8, f9⟩ := h4
      simp_all
      omega

theorem adjust_leverage_no_bounds_check_witness :
    ({ Account.new 7 with desired_leverage := MAX_LEVERAGE + 1 }).desired_leverage =
        MAX_LEVERAGE + 1 ∧
    ({ Account.new 7 with desired_leverage := MAX_LEVERAGE + 1 }).balance +
        ({ Account.new 7 with desired_leverage := MAX_LEVERAGE + 1 }).order_margin +
        ({ Account.new 7 with desired_leverage := MAX_LEVERAGE + 1 }).position_margin =
      (Account.new 7).balance + (Account.new 7).order_margin +
        (Account.new 7).position_margin ∧
    ({ Account.new 7 with desired_leverage := MAX_LEVERAGE + 1 }).size =
        (Account.new 7).size ∧
    ({ Account.new 7 with desired_leverage := MAX_LEVERAGE + 1 }).side =
        (Account.new 7).side ∧
    ({ Account.new 7 with desired_leverage := MAX_LEVERAGE + 1 }).entry_price =
        (Account.new 7).entry_price ∧
    ({ Account.new 7 with desired_leverage := MAX_LEVERAGE + 1 }).nonce =
        (Account.new 7).nonce ∧
    ({ Account.new 7 with desired_leverage := MAX_LEVERAGE + 1 }).max_bid_margin =
        (Account.new 7).max_bid_margin ∧
    ({ Account.new 7 with desired_leverage := MAX_LEVERAGE + 1 }).max_ask_margin =
        (Account.new 7).max_ask_margin :=
  adjust_leverage_no_bounds_check (Account.new 7)
    { Account.new 7 with desired_leverage := MAX_LEVERAGE + 1 }
    (MAX_LEVERAGE + 1) (by decide)

/-- Spec wording (C8): the amount by which a fill reduced the position —
the full pre-fill size when the side flipped, zero when the position
purely increased, otherwise the numeric reduction. -/
def reducedAmount (a prev : Account) : Nat :=
  if a.side = prev.side then prev.size - a.size else prev.size

/-- Spec wording (C8): the realized PnL of closing `red` units held at
entry price `prev.entry_price` against fill price `price`: the
difference between the reduced amount converted at the old entry price
and at the fill price (truncating division), signed by direction (a long
gains when the fill price is above entry, a short when below). -/
def realizedPnl (prev : Account) (red price : Nat) : Int :=
  match prev.side with
  | .long => ((red * SATOSHIS_PER_BITCOIN / prev.entry_price : Nat) : Int) -
      ((red * SATOSHIS_PER_BITCOIN / price : Nat) : Int)
  | .short => ((red * SATOSHIS_PER_BITCOIN / price : Nat) : Int) -
      ((red * SATOSHIS_PER_BITCOIN / prev.entry_price : Nat) : Int)

/-- C8: whenever `add_pnl` returns (no panic), the new balance is the
old balance plus the direction-signed difference between the reduced
amount converted at the old entry price and at the fill price; a purely
increasing fill leaves the account untouched (zero realized PnL), the
reduced amount is the full pre-fill size when the side flipped, and no
field other than `balance` changes. -/
theorem add_pnl_realized (a prev a' : Account) (price : Nat)
    (h : a.add_pnl prev price = some a') :
    (a.side = prev.side → prev.size < a.size → a' = a) ∧
    (a'.balance : Int) = a.balance + realizedPnl prev (reducedAmount a prev) price ∧
    a'.nonce = a.nonce ∧ a'.order_margin = a.order_margin ∧
    a'.max_bid_margin = a.max_bid_margin ∧ a'.max_ask_margin = a.max_ask_margin ∧
    a'.size = a.size ∧ a'.side = a.side ∧ a'.entry_price = a.entry_price ∧
    a'.position_margin = a.position_margin ∧ a'.desired_leverage = a.desired_leverage := by
  obtain ⟨pn, pb, pom, pmb, pma, psz, pside, pep, ppm, pdl⟩ := prev
  unfold Account.add_pnl at h
  simp only [] at h
  dsimp only at h ⊢
  by_cases hs : a.side = pside
  · rw [if_neg (not_not_intro hs)] at h
    by_cases hlt : psz < a.size
    · rw [if_pos hlt, if_pos rfl] at h
      injection h with h1
      subst h1
      refine ⟨fun _ _ => rfl, ?_, rfl, rfl, rfl, rfl, rfl, rfl, rfl, rfl, rfl⟩
      have hred : reducedAmount a ⟨pn, pb, pom, pmb, pma, psz, pside, pep, ppm, pdl⟩ = 0 := by
        unfold reducedAmount
        dsimp only
        rw [if_pos hs]
        omega
      rw [hred]
      unfold realizedPnl
      cases pside <;> simp
    · rw [if_neg hlt] at h
      have hred : reducedAmount a ⟨pn, pb, pom, pmb, pma, psz, pside, pep, ppm, pdl⟩ =
          psz - a.size := by
        unfold reducedAmount
        dsimp only
        rw [if_pos hs]
      by_cases hz : psz - a.size = 0
      · rw [if_pos hz] at h
        injection h with h1
        subst h1
        refine ⟨fun _ hl => absurd hl hlt, ?_, rfl, rfl, rfl, rfl, rfl, rfl, rfl, rfl, rfl⟩
        rw [hred, hz]
        unfold realizedPnl
        cases pside <;> simp
      · rw [if_neg hz] at h
        by_cases hp : price = 0
        · rw [if_pos hp] at h
          exact absurd h (by simp)
        · rw [if_neg hp] at h
          by_cases he : pep = 0
          · rw [if_pos he] at h
            exact absurd h (by simp)
          · rw [if_neg he] at h
            cases pside
            · by_cases hg : pep < price
              · rw [if_pos hg] at h
                by_cases hu : (psz - a.size) * SATOSHIS_PER_BITCOIN / pep <
                    (psz - a.size) * SATOSHIS_PER_BITCOIN / price
                · rw [if_pos hu] at h
                  exact absurd h (by simp)
                · rw [if_neg hu] at h
                  injection h with h1
                  subst h1
                  refine ⟨fun _ hl => absurd hl hlt, ?_, rfl, rfl, rfl, rfl, rfl, rfl,
                    rfl, rfl, rfl⟩
                  rw [hred]
                  unfold realizedPnl
                  dsimp only
                  omega
              · rw [if_neg hg] at h
                have hRP : (psz - a.size) * SATOSHIS_PER_BITCOIN / pep ≤
                    (psz - a.size) * SATOSHIS_PER_BITCOIN / price :=
                  Nat.div_le_div_left (by omega) (by omega)
                by_cases hb : a.balance <
                    (psz - a.size) * SATOSHIS_PER_BITCOIN / price -
                    (psz - a.size) * SATOSHIS_PER_BITCOIN / pep
                · rw [if_pos hb] at h
                  exact absurd h (by simp)
                · rw [if_neg hb] at h
                  injection h with h1
                  subst h1
                  refine ⟨fun _ hl => absurd hl hlt, ?_, rfl, rfl, rfl, rfl, rfl, rfl,
                    rfl, rfl, rfl⟩
                  rw [hred]
                  unfold realizedPnl
                  dsimp only
                  omega
            · by_cases hg : price < pep
              · rw [if_pos hg] at h
                by_cases hu : (psz - a.size) * SATOSHIS_PER_BITCOIN / price <
                    (psz - a.size) * SATOSHIS_PER_BITCOIN / pep
                · rw [if_pos hu] at h
                  exact absurd h (by simp)
                · rw [if_neg hu] at h
                  injection h with h1
                  subst h1
                  refine ⟨fun _ hl => absurd hl hlt, ?_, rfl, rfl, rfl, rfl, rfl, rfl,
                    rfl, rfl, rfl⟩
                  rw [hred]
                  unfold realizedPnl
                  dsimp only
                  omega
              · rw [if_neg hg] at h
                have hRP : (psz - a.size) * SATOSHIS_PER_BITCOIN / price ≤
                    (psz - a.size) * SATOSHIS_PER_BITCOIN / pep :=
                  Nat.div_le_div_left (by omega) (by omega)
                by_cases hb : a.balance <
                    (psz - a.size) * SATOSHIS_PER_BITCOIN / pep -
                    (psz - a.size) * SATOSHIS_PER_BITCOIN / price
                · rw [if_pos hb] at h
                  exact absurd h (by simp)
                · rw [if_neg hb] at h
                  injection h with h1
                  subst h1
                  refine ⟨fun _ hl => absurd hl hlt, ?_, rfl, rfl, rfl, rfl, rfl, rfl,
                    rfl, rfl, rfl⟩
                  rw [hred]
                  unfold realizedPnl
                  dsimp only
                  omega
  · rw [if_pos hs] at h
    have hred : reducedAmount a ⟨pn, pb, pom, pmb, pma, psz, pside, pep, ppm, pdl⟩ =
        psz := by
      unfold reducedAmount
      dsimp only
      rw [if_neg hs]
    by_cases hz : psz = 0
    · rw [if_pos hz] at h
      injection h with h1
      subst h1
      refine ⟨fun heq _ => absurd heq hs, ?_, rfl, rfl, rfl, rfl, rfl, rfl, rfl, rfl, rfl⟩
      rw [hred, hz]
      unfold realizedPnl
      cases pside <;> simp
    · rw [if_neg hz] at h
      by_cases hp : price = 0
      · rw [if_pos hp] at h
        exact absurd h (by simp)
      · rw [if_neg hp] at h
        by_cases he : pep = 0
        · rw [if_pos he] at h
          exact absurd h (by simp)
        · rw [if_neg he] at h
          cases pside
          · by_cases hg : pep < price
            · rw [if_pos hg] at h
              by_cases hu : psz * SATOSHIS_PER_BITCOIN / pep <
                  psz * SATOSHIS_PER_BITCOIN / price
              · rw [if_pos hu] at h
                exact absurd h (by simp)
              · rw [if_neg hu] at h
                injection h with h1
                subst h1
                refine ⟨fun heq _ => absurd heq hs, ?_, rfl, rfl, rfl, rfl, rfl, rfl,
                  rfl, rfl, rfl⟩
                rw [hred]
                unfold realizedPnl
                dsimp only
                omega
            · rw [if_neg hg] at h
              have hRP : psz * SATOSHIS_PER_BITCOIN / pep ≤
                  psz * SATOSHIS_PER_BITCOIN / price :=
                Nat.div_le_div_left (by omega) (by omega)
              by_cases hb : a.balance <
                  psz * SATOSHIS_PER_BITCOIN / price - psz * SATOSHIS_PER_BITCOIN / pep
              · rw [if_pos hb] at h
                exact absurd h (by simp)
              · rw [if_neg hb] at h
                injection h with h1
                subst h1
                refine ⟨fun heq _ => absurd heq hs, ?_, rfl, rfl, rfl, rfl, rfl, rfl,
                  rfl, rfl, rfl⟩
                rw [hred]
                unfold realizedPnl
                dsimp only
                omega
          · by_cases hg : price < pep
            · rw [if_pos hg] at h
              by_cases hu : psz * SATOSHIS_PER_BITCOIN / price <
                  psz * SATOSHIS_PER_BITCOIN / pep
              · rw [if_pos hu] at h
                exact absurd h (by simp)
              · rw [if_neg hu] at h
                injection h with h1
                subst h1
                refine ⟨fun heq _ => absurd heq hs, ?_, rfl, rfl, rfl, rfl, rfl, rfl,
                  rfl, rfl, rfl⟩
                rw [hred]
                unfold realizedPnl
                dsimp only
                omega
            · rw [if_neg hg] at h
              have hRP : psz * SATOSHIS_PER_BITCOIN / price ≤
                  psz * SATOSHIS_PER_BITCOIN / pep :=
                Nat.div_le_div_left (by omega) (by omega)
              by_cases hb : a.balance <
                  psz * SATOSHIS_PER_BITCOIN / pep - psz * SATOSHIS_PER_BITCOIN / price
              · rw [if_pos hb] at h
                exact absurd h (by simp)
              · rw [if_neg hb] at h
                injection h with h1
                subst h1
                refine ⟨fun heq _ => absurd heq hs, ?_, rfl, rfl, rfl, rfl, rfl, rfl,
                  rfl, rfl, rfl⟩
                rw [hred]
                unfold realizedPnl
                dsimp only
                omega

theorem add_pnl_preserves {a prev a' : Account} {price : Nat}
    (h : a.add_pnl prev price = some a') :
    a'.nonce = a.nonce ∧ a'.order_margin = a.order_margin ∧
    a'.max_bid_margin = a.max_bid_margin ∧ a'.max_ask_margin = a.max_ask_margin ∧
    a'.size = a.size ∧ a'.side = a.side ∧ a'.entry_price = a.entry_price ∧
    a'.position_margin = a.position_margin ∧ a'.desired_leverage = a.desired_leverage := by
  unfold Account.add_pnl at h
  simp only [] at h
  repeat' split at h
  all_goals
    try
      injection h with h1
      subst h1
      exact ⟨rfl, rfl, rfl, rfl, rfl, rfl, rfl, rfl, rfl⟩
  all_goals exact absurd h (by simp)

theorem fill_own_margin_route_ok_fields {a1 a' : Account}
    (h : a1.fill_own_margin_route = .ok () a') :
    a'.size = a1.size ∧ a'.side = a1.side ∧ a'.entry_price = a1.entry_price ∧
    a'.nonce = a1.nonce ∧ a'.desired_leverage = a1.desired_leverage := by
  unfold Account.fill_own_margin_route at h
  simp only [] at h
  split at h
  · exact absurd h (by simp)
  · split at h
    · exact absurd h (by simp)
    · split at h
      · exact absurd h (by simp)
      · exact absurd h (by simp)
      next unlocked a2 heq =>
        obtain ⟨_, hn, _, _, hsz, hsd, hep, _, hdl⟩ := update_order_margin_ok heq
        split at h <;>
        · injection h with h0 h1
          subst h1
          exact ⟨hsz, hsd, hep, hn, hdl⟩

theorem fill_own_margin_ok_fields {a a' : Account} {ms : Direction} {o : Order}
    (h : a.fill_own_margin ms o = .ok () a') :
    a'.size = a.size ∧ a'.side = a.side ∧ a'.entry_price = a.entry_price ∧
    a'.nonce = a.nonce ∧ a'.desired_leverage = a.desired_leverage := by
  unfold Account.fill_own_margin at h
  split at h
  · exact absurd h (by simp)
  next c hc =>
    split at h
    · split at h
      · exact absurd h (by simp)
      · have hr := fill_own_margin_route_ok_fields h
        exact hr
    · split at h
      · exact absurd h (by simp)
      · have hr := fill_own_margin_route_ok_fields h
        exact hr

theorem fill_order_settle_ok_fields {prev a3 a' : Account} {price : Nat}
    (h : Account.fill_order_settle prev price a3 = .ok () a') :
    a'.size = a3.size ∧ a'.side = a3.side ∧ a'.entry_price = a3.entry_price := by
  unfold Account.fill_order_settle at h
  split at h
  · exact absurd h (by simp)
  · exact absurd h (by simp)
  next freed a4 heq =>
    obtain ⟨_, _, _, _, hsz, hsd, hep, _, _⟩ := update_position_margin_ok heq
    simp only [] at h
    split at h
    · exact absurd h (by simp)
    next a6 heq2 =>
      obtain ⟨_, _, _, _, hsz2, hsd2, hep2, _, _⟩ := add_pnl_preserves heq2
      injection h with h0 h1
      subst h1
      exact ⟨hsz2.trans hsz, hsd2.trans hsd, hep2.trans hep⟩

theorem add_to_position_entry_price (a : Account) (s : Nat) (d : Direction) :
    (a.add_to_position s d).entry_price = a.entry_price := by
  unfold Account.add_to_position
  split
  · rfl
  · split
    · rfl
    · rfl

theorem update_entry_price_increasing {a a1 : Account} {o : Order}
    (h : a.update_entry_price o true = some a1) :
    a1.entry_price = (PRICE_PRECISION * o.size / (o.size + a.size) * o.price +
      (PRICE_PRECISION - PRICE_PRECISION * o.size / (o.size + a.size)) * a.entry_price) /
      PRICE_PRECISION := by
  unfold Account.update_entry_price at h
  simp only [] at h
  split at h
  · exact absurd h (by simp)
  · injection h with h1
    subst h1
    rfl

theorem update_entry_price_not_increasing {a a1 : Account} {o : Order}
    (h : a.update_entry_price o false = some a1) :
    (o.size ≤ a.size → a1 = a) ∧
    (a.size < o.size → a1 = { a with entry_price := o.price }) := by
  unfold Account.update_entry_price at h
  simp only [Bool.not_false, Bool.true_and] at h
  by_cases hrev : a.size < o.size
  · rw [decide_eq_true hrev] at h
    simp only [] at h
    injection h with h1
    subst h1
    exact ⟨fun hle => absurd hrev (by omega), fun h' => rfl⟩
  · rw [decide_eq_false hrev] at h
    simp only [] at h
    injection h with h1
    subst h1
    exact ⟨fun h' => rfl, fun hlt => absurd hlt hrev⟩

/-- C7: on a successful `fill_order`, the resulting `entry_price` is:
the fixed-point size-weighted average of the order price and the old
entry price when the position is increasing (own order on the account's
side, or own order while flat); unchanged when the position decreases
without flipping side; and the fill's price when the fill size exceeds
the pre-fill position so the side flips. -/
theorem fill_order_entry_price (a a' : Account) (maker_side : Direction) (o : Order)
    (own : Bool) (h : a.fill_order maker_side o own = .ok () a') :
    (own = true → (a.size = 0 ∨ maker_side = a.side) →
      a'.entry_price = (PRICE_PRECISION * o.size / (o.size + a.size) * o.price +
        (PRICE_PRECISION - PRICE_PRECISION * o.size / (o.size + a.size)) * a.entry_price) /
        PRICE_PRECISION) ∧
    (¬(own = true ∧ (a.size = 0 ∨ maker_side = a.side)) → o.size ≤ a.size →
      a'.entry_price = a.entry_price) ∧
    (¬(own = true ∧ (a.size = 0 ∨ maker_side = a.side)) → a.size < o.size →
      a'.entry_price = o.price) := by
  unfold Account.fill_order at h
  simp only [] at h
  cases own
  case false =>
    simp only [Bool.and_false, reduceIte] at h
    by_cases hsz : a.size = 0
    · rw [if_pos hsz] at h
      split at h
      · exact absurd h (by simp)
      next a1 heq =>
        have hne := update_entry_price_not_increasing heq
        have hs := fill_order_settle_ok_fields h
        refine ⟨fun hc _ => absurd hc (by simp), ?_, ?_⟩
        · intro h' hle
          rw [hs.2.2, add_to_position_entry_price, hne.1 hle]
        · intro h' hlt
          rw [hs.2.2, add_to_position_entry_price, hne.2 hlt]
    · rw [if_neg hsz] at h
      split at h
      · exact absurd h (by simp)
      next a1 heq =>
        have hne := update_entry_price_not_increasing heq
        have hs := fill_order_settle_ok_fields h
        refine ⟨fun hc _ => absurd hc (by simp), ?_, ?_⟩
        · intro h' hle
          rw [hs.2.2, add_to_position_entry_price, hne.1 hle]
        · intro h' hlt
          rw [hs.2.2, add_to_position_entry_price, hne.2 hlt]
  case true =>
    simp only [Bool.and_true, reduceIte] at h
    by_cases hsz : a.size = 0
    · rw [if_pos hsz] at h
      rw [decide_eq_true
        (show maker_side = ({ a with side := maker_side } : Account).side from rfl)] at h
      split at h
      · exact absurd h (by simp)
      next a1 heq =>
        have hinc := update_entry_price_increasing heq
        split at h
        · exact absurd h (by simp)
        · exact absurd h (by simp)
        next u a3 heq2 =>
          have hf := fill_own_margin_ok_fields heq2
          have hs := fill_order_settle_ok_fields h
          refine ⟨?_, fun hc _ => absurd ⟨rfl, Or.inl hsz⟩ hc,
            fun hc _ => absurd ⟨rfl, Or.inl hsz⟩ hc⟩
          intro h' h''
          rw [hs.2.2, hf.2.2.1, add_to_position_entry_price, hinc]
    · rw [if_neg hsz] at h
      by_cases hms : maker_side = a.side
      · rw [decide_eq_true hms] at h
        split at h
        · exact absurd h (by simp)
        next a1 heq =>
          have hinc := update_entry_price_increasing heq
          split at h
          · exact absurd h (by simp)
          · exact absurd h (by simp)
          next u a3 heq2 =>
            have hf := fill_own_margin_ok_fields heq2
            have hs := fill_order_settle_ok_fields h
            refine ⟨?_, fun hc _ => absurd ⟨rfl, Or.inr hms⟩ hc,
              fun hc _ => absurd ⟨rfl, Or.inr hms⟩ hc⟩
            intro h' h''
            rw [hs.2.2, hf.2.2.1, add_to_position_entry_price, hinc]
      · rw [decide_eq_false hms] at h
        split at h
        · exact absurd h (by simp)
        next a1 heq =>
          have hne := update_entry_price_not_increasing heq
          split at h
          · exact absurd h (by simp)
          · exact absurd h (by simp)
          next u a3 heq2 =>
            have hf := fill_own_margin_ok_fields heq2
            have hs := fill_order_settle_ok_fields h
            refine ⟨?_, ?_, ?_⟩
            · intro h' hcond
              rcases hcond with h1 | h1
              · exact absurd h1 hsz
              · exact absurd h1 hms
            · intro h' hle
              rw [hs.2.2, hf.2.2.1, add_to_position_entry_price, hne.1 hle]
            · intro h' hlt
              rw [hs.2.2, hf.2.2.1, add_to_position_entry_price, hne.2 hlt]

def c7IncA : Account := ⟨0, 100000000, 5000000, 5000000, 0, 100, .long, 1000, 10000000, 100⟩

def c7IncB : Account := ⟨0, 101666667, 0, 0, 0, 200, .long, 1500, 13333333, 100⟩

def c7DecA : Account := ⟨0, 0, 0, 0, 0, 200, .long, 1500, 13333333, 100⟩

def c7DecB : Account := ⟨0, 6666667, 0, 0, 0, 100, .long, 1500, 6666666, 100⟩

def c7FlipA : Account := ⟨0, 30000000, 0, 0, 0, 100, .long, 1000, 10000000, 100⟩

def c7FlipB : Account := ⟨0, 10000000, 0, 0, 0, 300, .short, 1000, 30000000, 100⟩

theorem fill_order_entry_price_witness :
    c7IncB.entry_price =
      (PRICE_PRECISION * 100 / (100 + c7IncA.size) * 2000 +
        (PRICE_PRECISION - PRICE_PRECISION * 100 / (100 + c7IncA.size)) *
          c7IncA.entry_price) / PRICE_PRECISION ∧
    c7DecB.entry_price = c7DecA.entry_price ∧
    c7FlipB.entry_price = 1000 :=
  ⟨(fill_order_entry_price c7IncA c7IncB .long ⟨2000, 2, 42, 100⟩ true (by decide)).1 rfl
      (Or.inr rfl),
   (fill_order_entry_price c7DecA c7DecB .long ⟨1500, 2, 42, 100⟩ false (by decide)).2.1
      (by simp) (by decide),
   (fill_order_entry_price c7FlipA c7FlipB .long ⟨1000, 2, 42, 400⟩ false (by decide)).2.2
      (by simp) (by decide)⟩

theorem add_pnl_realized_witness :
    (({ Account.new 0 with balance := 25000000 }).balance : Int) =
      ((Account.new 0).balance : Int) +
        realizedPnl { Account.new 0 with size := 500, side := .long, entry_price := 1000 }
          (reducedAmount (Account.new 0)
            { Account.new 0 with size := 500, side := .long, entry_price := 1000 }) 2000 :=
  (add_pnl_realized (Account.new 0)
      { Account.new 0 with size := 500, side := .long, entry_price := 1000 }
      { Account.new 0 with balance := 25000000 } 2000 (by decide)).2.1

/-! Order-book lemmas. -/

def sumSizes (l : List Order) : Nat := (l.map Order.size).sum

theorem matchLoop_nil (fromE : OrderKey × OrderValue → Order) (size creator : Nat)
    (side : Side) (price : Option Nat) (res : PlaceResult) (dels : List Order)
    (ins : Option Order) :
    matchLoop fromE size creator side price [] res dels ins = (res, dels, ins) := rfl

theorem matchLoop_cons (fromE : OrderKey × OrderValue → Order) (size creator : Nat)
    (side : Side) (price : Option Nat) (e : OrderKey × OrderValue) (rest : EntryList)
    (res : PlaceResult) (dels : List Order) (ins : Option Order) :
    matchLoop fromE size creator side price (e :: rest) res dels ins =
      (let next_order := fromE e
       let remaining_size := size - res.total_fill_size
       let stop := match side, price with
         | .buy, some p => decide (p < next_order.price)
         | .sell, some p => decide (next_order.price < p)
         | _, none => false
       if stop then (res, dels, ins)
       else if next_order.creator = creator then
         matchLoop fromE size creator side price rest res dels ins
       else if next_order.size ≤ remaining_size then
         let res' : PlaceResult :=
           ⟨res.total_fill_size + next_order.size, res.fills ++ [next_order]⟩
         let dels' := dels ++ [next_order]
         if size = res'.total_fill_size then (res', dels', ins)
         else matchLoop fromE size creator side price rest res' dels' ins
       else
         let pfill := { next_order with size := remaining_size }
         let res' : PlaceResult :=
           ⟨res.total_fill_size + remaining_size, res.fills ++ [pfill]⟩
         let updated := { next_order with size := next_order.size - remaining_size }
         if size = res'.total_fill_size then (res', dels, some updated)
         else matchLoop fromE size creator side price rest res' dels (some updated)) := rfl

theorem matchLoop_conservation (fromE : OrderKey × OrderValue → Order)
    (size creator : Nat) (side : Side) (price : Option Nat) :
    ∀ (entries : EntryList) (res : PlaceResult) (dels : List Order) (ins : Option Order),
      sumSizes res.fills = res.total_fill_size → res.total_fill_size ≤ size →
      sumSizes (matchLoop fromE size creator side price entries res dels ins).1.fills =
          (matchLoop fromE size creator side price entries res dels ins).1.total_fill_size ∧
        (matchLoop fromE size creator side price entries res dels ins).1.total_fill_size ≤
          size := by
  intro entries
  induction entries with
  | nil =>
    intro res dels ins h1 h2
    rw [matchLoop_nil]
    exact ⟨h1, h2⟩
  | cons e rest ih =>
    intro res dels ins h1 h2
    rw [matchLoop_cons]
    simp only []
    split
    · exact ⟨h1, h2⟩
    · split
      · exact ih res dels ins h1 h2
      · split
        next hle =>
          split
          next hdone =>
            constructor
            · simp only [sumSizes, List.map_append, List.sum_append] at h1 ⊢
              simp only [List.map_cons, List.map_nil, List.sum_cons, List.sum_nil]
              omega
            · try dsimp only at hdone ⊢
              omega
          next hdone =>
            apply ih
            · simp only [sumSizes, List.map_append, List.sum_append, List.map_cons,
                List.map_nil, List.sum_cons, List.sum_nil] at h1 ⊢
              omega
            · try dsimp only
              omega
        next hgt =>
          split
          next hdone =>
            constructor
            · simp only [sumSizes, List.map_append, List.sum_append] at h1 ⊢
              simp only [List.map_cons, List.map_nil, List.sum_cons, List.sum_nil]
              try dsimp only
              omega
            · try dsimp only
              omega
          next hdone =>
            apply ih
            · simp only [sumSizes, List.map_append, List.sum_append, List.map_cons,
                List.map_nil, List.sum_cons, List.sum_nil] at h1 ⊢
              try dsimp only
              omega
            · try dsimp only
              omega

theorem matchOrders_conservation (intoE : Order → OrderKey × OrderValue)
    (fromE : OrderKey × OrderValue → Order) (orders : EntryList) (size creator : Nat)
    (side : Side) (price : Option Nat) :
    sumSizes (matchOrders intoE fromE orders size creator side price).1.fills =
        (matchOrders intoE fromE orders size creator side price).1.total_fill_size ∧
      (matchOrders intoE fromE orders size creator side price).1.total_fill_size ≤ size := by
  unfold matchOrders
  simp only []
  exact matchLoop_conservation fromE size creator side price orders ⟨0, []⟩ [] none rfl
    (Nat.zero_le _)

/-- C5: every placement (limit or market, buy or sell) returns a
`PlaceResult` whose fill sizes sum exactly to `total_fill_size`, and
`total_fill_size` never exceeds the requested size. -/
theorem place_result_conservation (st : OrderBookState) (size creator price height : Nat) :
    (sumSizes (st.place_limit_buy size creator price height).1.fills =
        (st.place_limit_buy size creator price height).1.total_fill_size ∧
      (st.place_limit_buy size creator price height).1.total_fill_size ≤ size) ∧
    (sumSizes (st.place_limit_sell size creator price height).1.fills =
        (st.place_limit_sell size creator price height).1.total_fill_size ∧
      (st.place_limit_sell size creator price height).1.total_fill_size ≤ size) ∧
    (sumSizes (st.place_market_buy size creator).1.fills =
        (st.place_market_buy size creator).1.total_fill_size ∧
      (st.place_market_buy size creator).1.total_fill_size ≤ size) ∧
    (sumSizes (st.place_market_sell size creator).1.fills =
        (st.place_market_sell size creator).1.total_fill_size ∧
      (st.place_market_sell size creator).1.total_fill_size ≤ size) :=
  ⟨matchOrders_conservation Ask.into_entry Ask.from_entry st.asks size creator .buy
      (some price),
   matchOrders_conservation Bid.into_entry Bid.from_entry st.bids size creator .sell
      (some price),
   matchOrders_conservation Ask.into_entry Ask.from_entry st.asks size creator .buy none,
   matchOrders_conservation Bid.into_entry Bid.from_entry st.bids size creator .sell none⟩

/-- Entries of a side belonging to one creator, in book order. -/
def creatorEntries (c : Nat) (l : EntryList) : EntryList :=
  l.filter (fun e => e.1.creator == c)

theorem mapDelete_creator_ne {k : OrderKey} {c : Nat} (hk : ¬ k.creator = c)
    (l : EntryList) : creatorEntries c (mapDelete k l) = creatorEntries c l := by
  induction l with
  | nil => rfl
  | cons e rest ih =>
    unfold mapDelete
    split
    next heq =>
      have hb : (e.1.creator == c) = false := by
        rw [← heq]
        exact beq_eq_false_iff_ne.mpr hk
      simp [creatorEntries, List.filter_cons, hb]
    next hne =>
      have ih' := ih
      unfold creatorEntries at ih' ⊢
      cases hb : (e.1.creator == c) <;> simp [List.filter_cons, hb, ih']

theorem mapInsert_creator_ne {k : OrderKey} {v : OrderValue} {c : Nat}
    (hk : ¬ k.creator = c) (l : EntryList) :
    creatorEntries c (mapInsert k v l) = creatorEntries c l := by
  have hkb : (k.creator == c) = false := beq_eq_false_iff_ne.mpr hk
  induction l with
  | nil => simp [mapInsert, creatorEntries, List.filter_cons, hkb]
  | cons e rest ih =>
    unfold mapInsert
    split
    · simp [creatorEntries, List.filter_cons, hkb]
    · split
      next heq =>
        have hb : (e.1.creator == c) = false := by
          rw [← heq]
          exact hkb
        simp [creatorEntries, List.filter_cons, hkb, hb]
      next hne =>
        have ih' := ih
        unfold creatorEntries at ih' ⊢
        cases hb : (e.1.creator == c) <;> simp [List.filter_cons, hb, ih']

theorem matchLoop_creators (fromE : OrderKey × OrderValue → Order) (size creator : Nat)
    (side : Side) (price : Option Nat) :
    ∀ (entries : EntryList) (res : PlaceResult) (dels : List Order) (ins : Option Order),
      (∀ f ∈ res.fills, ¬ f.creator = creator) →
      (∀ o ∈ dels, ¬ o.creator = creator) →
      (∀ o, ins = some o → ¬ o.creator = creator) →
      (∀ f ∈ (matchLoop fromE size creator side price entries res dels ins).1.fills,
          ¬ f.creator = creator) ∧
      (∀ o ∈ (matchLoop fromE size creator side price entries res dels ins).2.1,
          ¬ o.creator = creator) ∧
      (∀ o, (matchLoop fromE size creator side price entries res dels ins).2.2 = some o →
          ¬ o.creator = creator) := by
  intro entries
  induction entries with
  | nil =>
    intro res dels ins h1 h2 h3
    rw [matchLoop_nil]
    exact ⟨h1, h2, h3⟩
  | cons e rest ih =>
    intro res dels ins h1 h2 h3
    rw [matchLoop_cons]
    simp only []
    split
    · exact ⟨h1, h2, h3⟩
    · split
      · exact ih res dels ins h1 h2 h3
      next hcr =>
        split
        next hle =>
          split
          next hdone =>
            refine ⟨?_, ?_, h3⟩
            · intro f hf
              rcases List.mem_append.mp hf with hf | hf
              · exact h1 f hf
              · rw [List.mem_singleton.mp hf]
                exact hcr
            · intro o ho
              rcases List.mem_append.mp ho with ho | ho
              · exact h2 o ho
              · rw [List.mem_singleton.mp ho]
                exact hcr
          next hdone =>
            apply ih
            · intro f hf
              rcases List.mem_append.mp hf with hf | hf
              · exact h1 f hf
              · rw [List.mem_singleton.mp hf]
                exact hcr
            · intro o ho
              rcases List.mem_append.mp ho with ho | ho
              · exact h2 o ho
              · rw [List.mem_singleton.mp ho]
                exact hcr
            · exact h3
        next hgt =>
          split
          next hdone =>
            refine ⟨?_, h2, ?_⟩
            · intro f hf
              rcases List.mem_append.mp hf with hf | hf
              · exact h1 f hf
              · rw [List.mem_singleton.mp hf]
                exact hcr
            · intro o ho
              injection ho with ho
              rw [← ho]
              exact hcr
          next hdone =>
            apply ih
            · intro f hf
              rcases List.mem_append.mp hf with hf | hf
              · exact h1 f hf
              · rw [List.mem_singleton.mp hf]
                exact hcr
            · exact h2
            · intro o ho
              injection ho with ho
              rw [← ho]
              exact hcr

theorem foldl_mapDelete_creator (intoE : Order → OrderKey × OrderValue)
    (hkey : ∀ o : Order, (intoE o).1.creator = o.creator) (creator : Nat) :
    ∀ (ds : List Order), (∀ o ∈ ds, ¬ o.creator = creator) → ∀ (m : EntryList),
      creatorEntries creator (ds.foldl (fun m o => mapDelete (intoE o).1 m) m) =
        creatorEntries creator m := by
  intro ds
  induction ds with
  | nil =>
    intro _ m
    rfl
  | cons d ds ih =>
    intro hds m
    rw [List.foldl_cons]
    rw [ih (fun o ho => hds o (List.mem_cons_of_mem _ ho)) (mapDelete (intoE d).1 m)]
    exact mapDelete_creator_ne
      (by rw [hkey]; exact hds d (List.mem_cons_self _ _)) m

theorem matchOrders_self_trade (intoE : Order → OrderKey × OrderValue)
    (fromE : OrderKey × OrderValue → Order)
    (hkey : ∀ o : Order, (intoE o).1.creator = o.creator) (orders : EntryList)
    (size creator : Nat) (side : Side) (price : Option Nat) :
    (∀ f ∈ (matchOrders intoE fromE orders size creator side price).1.fills,
        ¬ f.creator = creator) ∧
    creatorEntries creator (matchOrders intoE fromE orders size creator side price).2 =
      creatorEntries creator orders := by
  obtain ⟨hf, hd, hi⟩ := matchLoop_creators fromE size creator side price orders ⟨0, []⟩
    [] none (by simp) (by simp) (by simp)
  unfold matchOrders
  simp only []
  refine ⟨hf, ?_⟩
  rcases hins : (matchLoop fromE size creator side price orders ⟨0, []⟩ [] none).2.2
    with _ | o
  · exact foldl_mapDelete_creator intoE hkey creator _ hd orders
  · show creatorEntries creator
        (mapInsert (intoE o).1 (intoE o).2
          (List.foldl (fun m o => mapDelete (intoE o).1 m) orders
            (matchLoop fromE size creator side price orders ⟨0, []⟩ [] none).2.1)) =
      creatorEntries creator orders
    rw [mapInsert_creator_ne (by rw [hkey]; exact hi o hins)]
    exact foldl_mapDelete_creator intoE hkey creator _ hd orders

/-- C6 counterexample: the resting-remainder insert of a limit order
overwrites the creator's own resting order stored under the same
`(price, creator, height)` key, changing its size — so it is not true
that every resting order of the incoming creator survives a placement
call with unchanged size. -/
theorem place_limit_buy_overwrites_own_order :
    (({ bids := insertBid ⟨100, 2, 5, 10⟩ [], asks := [] } :
        OrderBookState).place_limit_buy 3 2 100 5).2.bids.map (fun e => e.2.size) = [3] ∧
    ({ bids := insertBid ⟨100, 2, 5, 10⟩ [], asks := [] } :
        OrderBookState).bids.map (fun e => e.2.size) = [10] := by
  decide

/-- C6 (amended): matching never crosses the incoming creator's own
resting orders: no returned fill carries the incoming creator, and on
the side being matched against, the incoming creator's entries are
exactly preserved; market orders leave the other side untouched.  (A
limit order's unfilled remainder is inserted on its own side and may
overwrite the creator's previous order at the same price and height.) -/
theorem place_self_trade_prevention (st : OrderBookState)
    (size creator price height : Nat) :
    ((st.place_limit_buy size creator price height).1.fills.all
        (fun f => f.creator != creator)) = true ∧
    ((st.place_limit_sell size creator price height).1.fills.all
        (fun f => f.creator != creator)) = true ∧
    ((st.place_market_buy size creator).1.fills.all
        (fun f => f.creator != creator)) = true ∧
    ((st.place_market_sell size creator).1.fills.all
        (fun f => f.creator != creator)) = true ∧
    creatorEntries creator (st.place_limit_buy size creator price height).2.asks =
      creatorEntries creator st.asks ∧
    creatorEntries creator (st.place_limit_sell size creator price height).2.bids =
      creatorEntries creator st.bids ∧
    creatorEntries creator (st.place_market_buy size creator).2.asks =
      creatorEntries creator st.asks ∧
    (st.place_market_buy size creator).2.bids = st.bids ∧
    creatorEntries creator (st.place_market_sell size creator).2.bids =
      creatorEntries creator st.bids ∧
    (st.place_market_sell size creator).2.asks = st.asks := by
  have hb : ∀ o : Order, (Bid.into_entry o).1.creator = o.creator := fun o => rfl
  have ha : ∀ o : Order, (Ask.into_entry o).1.creator = o.creator := fun o => rfl
  have h1 := matchOrders_self_trade Ask.into_entry Ask.from_entry ha st.asks size creator
    .buy (some price)
  have h2 := matchOrders_self_trade Bid.into_entry Bid.from_entry hb st.bids size creator
    .sell (some price)
  have h3 := matchOrders_self_trade Ask.into_entry Ask.from_entry ha st.asks size creator
    .buy none
  have h4 := matchOrders_self_trade Bid.into_entry Bid.from_entry hb st.bids size creator
    .sell none
  refine ⟨?_, ?_, ?_, ?_, h1.2, h2.2, h3.2, rfl, h4.2, rfl⟩
  · rw [List.all_eq_true]
    intro f hf
    simpa using h1.1 f hf
  · rw [List.all_eq_true]
    intro f hf
    simpa using h2.1 f hf
  · rw [List.all_eq_true]
    intro f hf
    simpa using h3.1 f hf
  · rw [List.all_eq_true]
    intro f hf
    simpa using h4.1 f hf

theorem OrderKey.lt_irrefl (k : OrderKey) : ¬ OrderKey.lt k k := by
  unfold OrderKey.lt
  omega

theorem OrderKey.lt_trans {k1 k2 k3 : OrderKey} (h1 : OrderKey.lt k1 k2)
    (h2 : OrderKey.lt k2 k3) : OrderKey.lt k1 k3 := by
  unfold OrderKey.lt at *
  omega

theorem OrderKey.lt_asymm {k1 k2 : OrderKey} (h : OrderKey.lt k1 k2) :
    ¬ OrderKey.lt k2 k1 := by
  unfold OrderKey.lt at *
  omega

theorem OrderKey.lt_of_not_lt {k1 k2 : OrderKey} (h1 : ¬ OrderKey.lt k1 k2)
    (h2 : ¬ k1 = k2) : OrderKey.lt k2 k1 := by
  obtain ⟨p1, c1, g1⟩ := k1
  obtain ⟨p2, c2, g2⟩ := k2
  simp only [OrderKey.mk.injEq] at h2
  unfold OrderKey.lt at *
  simp only at h1 ⊢
  omega

/-- Well-formedness of a book side: entries strictly sorted by key. -/
def SortedEntries (l : EntryList) : Prop :=
  l.Pairwise (fun e1 e2 => OrderKey.lt e1.1 e2.1)

theorem mapInsert_mem {k : OrderKey} {v : OrderValue} {l : EntryList}
    {x : OrderKey × OrderValue} (h : x ∈ mapInsert k v l) : x = (k, v) ∨ x ∈ l := by
  induction l with
  | nil => simpa [mapInsert] using h
  | cons e rest ih =>
    unfold mapInsert at h
    split at h
    · rcases List.mem_cons.mp h with h1 | h1
      · exact Or.inl h1
      · exact Or.inr h1
    · split at h
      · rcases List.mem_cons.mp h with h1 | h1
        · exact Or.inl h1
        · exact Or.inr (List.mem_cons_of_mem _ h1)
      · rcases List.mem_cons.mp h with h1 | h1
        · exact Or.inr (List.mem_cons.mpr (Or.inl h1))
        · rcases ih h1 with h2 | h2
          · exact Or.inl h2
          · exact Or.inr (List.mem_cons_of_mem _ h2)

theorem mapInsert_sorted {k : OrderKey} {v : OrderValue} {l : EntryList}
    (h : SortedEntries l) : SortedEntries (mapInsert k v l) := by
  induction l with
  | nil => simp [mapInsert, SortedEntries]
  | cons e rest ih =>
    unfold SortedEntries at *
    rw [List.pairwise_cons] at h
    obtain ⟨he, hrest⟩ := h
    unfold mapInsert
    split
    next hlt =>
      rw [List.pairwise_cons]
      constructor
      · intro x hx
        rcases List.mem_cons.mp hx with h1 | h1
        · rw [h1]
          exact hlt
        · exact OrderKey.lt_trans hlt (he x h1)
      · rw [List.pairwise_cons]
        exact ⟨he, hrest⟩
    next hlt =>
      split
      next heq =>
        rw [List.pairwise_cons]
        refine ⟨fun x hx => ?_, hrest⟩
        rw [heq]
        exact he x hx
      next hne =>
        rw [List.pairwise_cons]
        refine ⟨fun x hx => ?_, ih hrest⟩
        rcases mapInsert_mem hx with h1 | h1
        · rw [h1]
          exact OrderKey.lt_of_not_lt hlt hne
        · exact he x h1

theorem mapInsert_self_mem_sorted {k : OrderKey} {v : OrderValue} {l : EntryList}
    (hs : SortedEntries l) (hm : (k, v) ∈ l) : mapInsert k v l = l := by
  induction l with
  | nil => cases hm
  | cons e rest ih =>
    unfold SortedEntries at hs
    rw [List.pairwise_cons] at hs
    obtain ⟨he, hrest⟩ := hs
    unfold mapInsert
    split
    next hlt =>
      exfalso
      rcases List.mem_cons.mp hm with h1 | h1
      · rw [← h1] at hlt
        exact OrderKey.lt_irrefl _ hlt
      · exact OrderKey.lt_asymm hlt (he _ h1)
    next hlt =>
      split
      next heq =>
        rcases List.mem_cons.mp hm with h1 | h1
        · rw [h1]
        · exact absurd (he _ h1) (by rw [heq]; exact OrderKey.lt_irrefl _)
      next hne =>
        rcases List.mem_cons.mp hm with h1 | h1
        · exact absurd (congrArg Prod.fst h1) hne
        · rw [ih hrest h1]

theorem foldl_mapInsert_sorted (intoE : Order → OrderKey × OrderValue) (os : List Order) :
    ∀ (m : EntryList), SortedEntries m →
      SortedEntries (os.foldl (fun m o => mapInsert (intoE o).1 (intoE o).2 m) m) := by
  induction os with
  | nil => exact fun m hm => hm
  | cons o os ih =>
    intro m hm
    rw [List.foldl_cons]
    exact ih _ (mapInsert_sorted hm)

theorem foldl_mapInsert_mem (intoE : Order → OrderKey × OrderValue) (os : List Order) :
    ∀ (m : EntryList) (x : OrderKey × OrderValue),
      x ∈ os.foldl (fun m o => mapInsert (intoE o).1 (intoE o).2 m) m →
      x ∈ m ∨ ∃ o ∈ os, x = intoE o := by
  induction os with
  | nil => exact fun m x h => Or.inl h
  | cons o os ih =>
    intro m x h
    rw [List.foldl_cons] at h
    rcases ih _ x h with h1 | h1
    · rcases mapInsert_mem h1 with h2 | h2
      · right
        exact ⟨o, List.mem_cons_self _ _, by rw [h2]⟩
      · exact Or.inl h2
    · right
      obtain ⟨o', ho', hx⟩ := h1
      exact ⟨o', List.mem_cons_of_mem _ ho', hx⟩

/-- Spec wording (C2, amended): strict bid priority — descending price,
then ascending creator encoding, then ascending height. -/
def bidPriority (o1 o2 : Order) : Prop :=
  o2.price < o1.price ∨ (o1.price = o2.price ∧
    (o1.creator < o2.creator ∨ (o1.creator = o2.creator ∧ o1.height < o2.height)))

/-- Spec wording (C2, amended): strict ask priority — ascending price,
then ascending creator encoding, then ascending height. -/
def askPriority (o1 o2 : Order) : Prop :=
  o1.price < o2.price ∨ (o1.price = o2.price ∧
    (o1.creator < o2.creator ∨ (o1.creator = o2.creator ∧ o1.height < o2.height)))

/-- Spec wording (C2, as claimed): price priority with pure time
priority (ascending height) among equal-price orders, regardless of
creator. -/
def claimedBidTimePriority (o1 o2 : Order) : Prop :=
  o2.price < o1.price ∨ (o1.price = o2.price ∧ o1.height ≤ o2.height)

instance (o1 o2 : Order) : Decidable (claimedBidTimePriority o1 o2) := by
  unfold claimedBidTimePriority
  infer_instance

/-- C2 counterexample: two bids at the same price from different
creators, the later-height order from the smaller creator address.  The
key sorts by creator before height, so iteration yields height 2 before
height 1 — equal-price orders are *not* in ascending height order when
creators differ. -/
theorem bid_iteration_not_time_priority :
    (([⟨100, 3, 1, 5⟩, ⟨100, 2, 2, 5⟩] : List Order).foldl
        (fun m o => insertBid o m) []).map Bid.from_entry =
      [⟨100, 2, 2, 5⟩, ⟨100, 3, 1, 5⟩] ∧
    ¬ claimedBidTimePriority ⟨100, 2, 2, 5⟩ ⟨100, 3, 1, 5⟩ := by
  constructor
  · decide
  · decide

/-- C2 (amended): for every insertion sequence (with u64 prices),
iterating a side yields strict price priority — descending for bids,
ascending for asks — and among equal-price orders, ascending creator
encoding first and ascending height only among orders of the same
creator (the key is `(price, creator, height)`, so creator outranks
height). -/
theorem book_iteration_priority (os : List Order)
    (hp : ∀ o ∈ os, o.price ≤ U64_MAX) :
    ((os.foldl (fun m o => insertBid o m) []).map Bid.from_entry).Pairwise bidPriority ∧
    ((os.foldl (fun m o => insertAsk o m) []).map Ask.from_entry).Pairwise askPriority := by
  constructor
  · rw [List.pairwise_map]
    have hsort := foldl_mapInsert_sorted Bid.into_entry os [] (by simp [SortedEntries])
    unfold SortedEntries at hsort
    refine List.Pairwise.imp_of_mem ?_ hsort
    intro e1 e2 h1 h2 hlt
    obtain ⟨o1, ho1, he1⟩ :=
      (foldl_mapInsert_mem Bid.into_entry os [] e1 h1).resolve_left (by simp)
    obtain ⟨o2, ho2, he2⟩ :=
      (foldl_mapInsert_mem Bid.into_entry os [] e2 h2).resolve_left (by simp)
    subst he1
    subst he2
    have hb1 := hp o1 ho1
    have hb2 := hp o2 ho2
    unfold OrderKey.lt at hlt
    unfold bidPriority Bid.from_entry Bid.into_entry at *
    dsimp only at *
    omega
  · rw [List.pairwise_map]
    have hsort := foldl_mapInsert_sorted Ask.into_entry os [] (by simp [SortedEntries])
    unfold SortedEntries at hsort
    refine List.Pairwise.imp_of_mem ?_ hsort
    intro e1 e2 h1 h2 hlt
    obtain ⟨o1, ho1, he1⟩ :=
      (foldl_mapInsert_mem Ask.into_entry os [] e1 h1).resolve_left (by simp)
    obtain ⟨o2, ho2, he2⟩ :=
      (foldl_mapInsert_mem Ask.into_entry os [] e2 h2).resolve_left (by simp)
    subst he1
    subst he2
    unfold OrderKey.lt at hlt
    unfold askPriority Ask.from_entry Ask.into_entry at *
    dsimp only at *
    omega

theorem book_iteration_priority_witness :
    ((([⟨10000, 2, 42, 10⟩, ⟨11000, 2, 42, 10⟩, ⟨9000, 2, 42, 10⟩] : List Order).foldl
        (fun m o => insertBid o m) []).map Bid.from_entry).Pairwise bidPriority ∧
    ((([⟨10000, 2, 42, 10⟩, ⟨11000, 2, 42, 10⟩, ⟨9000, 2, 42, 10⟩] : List Order).foldl
        (fun m o => insertAsk o m) []).map Ask.from_entry).Pairwise askPriority :=
  book_iteration_priority [⟨10000, 2, 42, 10⟩, ⟨11000, 2, 42, 10⟩, ⟨9000, 2, 42, 10⟩]
    (by decide)

/-- Entries of a book side with positive resting size. -/
def posEntries (l : EntryList) : EntryList :=
  l.filter (fun e => e.2.size != 0)

theorem ask_entry_round_trip (e : OrderKey × OrderValue) :
    Ask.into_entry (Ask.from_entry e) = e := rfl

theorem bid_entry_round_trip {e : OrderKey × OrderValue} (h : e.1.price ≤ U64_MAX) :
    Bid.into_entry (Bid.from_entry e) = e := by
  unfold Bid.into_entry Bid.from_entry
  dsimp only
  have h2 : U64_MAX - (U64_MAX - e.1.price) = e.1.price := by omega
  rw [h2]

theorem mapDelete_zero_posEntries {l : EntryList} {e : OrderKey × OrderValue}
    (hs : SortedEntries l) (hm : e ∈ l) (hz : e.2.size = 0) :
    posEntries (mapDelete e.1 l) = posEntries l := by
  induction l with
  | nil => cases hm
  | cons x rest ih =>
    unfold SortedEntries at hs
    rw [List.pairwise_cons] at hs
    obtain ⟨hx, hrest⟩ := hs
    unfold mapDelete
    split
    next heq =>
      have hxe : x = e := by
        rcases List.mem_cons.mp hm with h1 | h1
        · exact h1.symm
        · exact absurd (hx e h1) (by rw [heq]; exact OrderKey.lt_irrefl _)
      have hxz : (x.2.size != 0) = false := by
        rw [hxe]
        simp [hz]
      simp [posEntries, List.filter_cons, hxz]
    next hne =>
      have hm' : e ∈ rest := by
        rcases List.mem_cons.mp hm with h1 | h1
        · exact absurd (congrArg Prod.fst h1) hne
        · exact h1
      have ih' := ih hrest hm'
      unfold posEntries at ih' ⊢
      cases hb : (x.2.size != 0) <;> simp [List.filter_cons, hb, ih']

theorem matchLoop_zero (fromE : OrderKey × OrderValue → Order)
    (hsize : ∀ e, (fromE e).size = e.2.size) (creator : Nat) (side : Side)
    (price : Option Nat) :
    ∀ entries : EntryList,
      matchLoop fromE 0 creator side price entries ⟨0, []⟩ [] none =
          (⟨0, []⟩, [], none) ∨
      (∃ e ∈ entries, e.2.size = 0 ∧
        matchLoop fromE 0 creator side price entries ⟨0, []⟩ [] none =
          (⟨0, [fromE e]⟩, [fromE e], none)) ∨
      (∃ e ∈ entries, ¬ e.2.size = 0 ∧
        matchLoop fromE 0 creator side price entries ⟨0, []⟩ [] none =
          (⟨0, [{ fromE e with size := 0 }]⟩, [], some (fromE e))) := by
  intro entries
  induction entries with
  | nil => exact Or.inl (matchLoop_nil fromE 0 creator side price ⟨0, []⟩ [] none)
  | cons e rest ih =>
    rw [matchLoop_cons]
    simp only []
    split
    · exact Or.inl rfl
    · split
      next hcr =>
        rcases ih with h | h | h
        · exact Or.inl h
        · obtain ⟨e', he', hz, heq⟩ := h
          exact Or.inr (Or.inl ⟨e', List.mem_cons_of_mem _ he', hz, heq⟩)
        · obtain ⟨e', he', hz, heq⟩ := h
          exact Or.inr (Or.inr ⟨e', List.mem_cons_of_mem _ he', hz, heq⟩)
      next hcr =>
        split
        next hle =>
          have hz : (fromE e).size = 0 := by
            simp at hle
            omega
          split
          next hdone =>
            refine Or.inr (Or.inl ⟨e, List.mem_cons_self _ _, ?_, ?_⟩)
            · rw [← hsize e]
              exact hz
            · simp [hz]
          next hdone =>
            exact absurd (by simp [hz]) hdone
        next hgt =>
          split
          next hdone =>
            refine Or.inr (Or.inr ⟨e, List.mem_cons_self _ _, ?_, ?_⟩)
            · rw [← hsize e]
              intro h0
              exact hgt (by simp [h0])
            · simp
          next hdone =>
            exact absurd (by simp) hdone

theorem matchOrders_zero (intoE : Order → OrderKey × OrderValue)
    (fromE : OrderKey × OrderValue → Order)
    (hsize : ∀ e, (fromE e).size = e.2.size) (orders : EntryList)
    (hrt : ∀ e ∈ orders, intoE (fromE e) = e) (creator : Nat) (side : Side)
    (price : Option Nat) (hs : SortedEntries orders) :
    (matchOrders intoE fromE orders 0 creator side price).1.total_fill_size = 0 ∧
    ((matchOrders intoE fromE orders 0 creator side price).1.fills.all
      (fun f => f.size == 0)) = true ∧
    posEntries (matchOrders intoE fromE orders 0 creator side price).2 =
      posEntries orders := by
  unfold matchOrders
  simp only []
  rcases matchLoop_zero fromE hsize creator side price orders with h | h | h
  · rw [h]
    exact ⟨rfl, rfl, rfl⟩
  · obtain ⟨e, he, hz, heq⟩ := h
    rw [heq]
    refine ⟨rfl, ?_, ?_⟩
    · simp [hsize e, hz]
    · show posEntries (mapDelete (intoE (fromE e)).1 orders) = posEntries orders
      rw [hrt e he]
      exact mapDelete_zero_posEntries hs he hz
  · obtain ⟨e, he, hz, heq⟩ := h
    rw [heq]
    refine ⟨rfl, by simp, ?_⟩
    show posEntries (mapInsert (intoE (fromE e)).1 (intoE (fromE e)).2 orders) =
      posEntries orders
    rw [hrt e he]
    rw [mapInsert_self_mem_sorted hs he]

/-- C4 counterexample: a zero-size limit buy on an empty book still
writes a (zero-size) resting entry, mutating the book, and a zero-size
market buy against a non-empty ask side returns a `PlaceResult` with one
(zero-size) fill, not an empty one. -/
theorem place_zero_size_not_noop :
    (emptyBook.place_limit_buy 0 7 100 1).2.bids ≠ emptyBook.bids ∧
    (({ emptyBook with asks := insertAsk ⟨10, 2, 42, 5⟩ [] } :
        OrderBookState).place_market_buy 0 7).1.fills ≠ [] := by
  decide

/-- Spec wording (C4, amended): a zero-size placement reports no fill
volume and only zero-size fills. -/
def ZeroPlaceOk (r : PlaceResult) : Prop :=
  r.total_fill_size = 0 ∧ (r.fills.all (fun f => f.size == 0)) = true

/-- C4 (amended): a zero-size incoming order fills nothing —
`total_fill_size = 0` and every reported fill has size 0 — and never
deletes or resizes a positive-size resting order on the side it matches
against; market orders leave the rest of the book untouched, while a
zero-size limit order additionally writes a zero-size resting entry at
its own key (possibly replacing the creator's previous entry there). -/
theorem place_zero_size (st : OrderBookState) (creator price height : Nat)
    (hb : SortedEntries st.bids) (ha : SortedEntries st.asks)
    (hbp : ∀ e ∈ st.bids, e.1.price ≤ U64_MAX) :
    (ZeroPlaceOk (st.place_market_buy 0 creator).1 ∧
      posEntries (st.place_market_buy 0 creator).2.asks = posEntries st.asks ∧
      (st.place_market_buy 0 creator).2.bids = st.bids) ∧
    (ZeroPlaceOk (st.place_market_sell 0 creator).1 ∧
      posEntries (st.place_market_sell 0 creator).2.bids = posEntries st.bids ∧
      (st.place_market_sell 0 creator).2.asks = st.asks) ∧
    (ZeroPlaceOk (st.place_limit_buy 0 creator price height).1 ∧
      posEntries (st.place_limit_buy 0 creator price height).2.asks =
        posEntries st.asks ∧
      (st.place_limit_buy 0 creator price height).2.bids =
        insertBid ⟨price, creator, height, 0⟩ st.bids) ∧
    (ZeroPlaceOk (st.place_limit_sell 0 creator price height).1 ∧
      posEntries (st.place_limit_sell 0 creator price height).2.bids =
        posEntries st.bids ∧
      (st.place_limit_sell 0 creator price height).2.asks =
        insertAsk ⟨price, creator, height, 0⟩ st.asks) := by
  have hra : ∀ e ∈ st.asks, Ask.into_entry (Ask.from_entry e) = e := fun e _ =>
    ask_entry_round_trip e
  have hrb : ∀ e ∈ st.bids, Bid.into_entry (Bid.from_entry e) = e := fun e he =>
    bid_entry_round_trip (hbp e he)
  have hsa : ∀ e : OrderKey × OrderValue, (Ask.from_entry e).size = e.2.size :=
    fun e => rfl
  have hsb : ∀ e : OrderKey × OrderValue, (Bid.from_entry e).size = e.2.size :=
    fun e => rfl
  have h1 := matchOrders_zero Ask.into_entry Ask.from_entry hsa st.asks hra creator
    .buy none ha
  have h2 := matchOrders_zero Bid.into_entry Bid.from_entry hsb st.bids hrb creator
    .sell none hb
  have h3 := matchOrders_zero Ask.into_entry Ask.from_entry hsa st.asks hra creator
    .buy (some price) ha
  have h4 := matchOrders_zero Bid.into_entry Bid.from_entry hsb st.bids hrb creator
    .sell (some price) hb
  refine ⟨⟨⟨h1.1, h1.2.1⟩, h1.2.2, rfl⟩, ⟨⟨h2.1, h2.2.1⟩, h2.2.2, rfl⟩,
    ⟨⟨h3.1, h3.2.1⟩, h3.2.2, ?_⟩, ⟨⟨h4.1, h4.2.1⟩, h4.2.2, ?_⟩⟩
  · show mapInsert (Bid.into_entry ⟨price, creator, height,
        0 - (matchOrders Ask.into_entry Ask.from_entry st.asks 0 creator .buy
          (some price)).1.total_fill_size⟩).1
      (Bid.into_entry ⟨price, creator, height,
        0 - (matchOrders Ask.into_entry Ask.from_entry st.asks 0 creator .buy
          (some price)).1.total_fill_size⟩).2 st.bids =
      insertBid ⟨price, creator, height, 0⟩ st.bids
    rw [h3.1]
    rfl
  · show mapInsert (Ask.into_entry ⟨price, creator, height,
        0 - (matchOrders Bid.into_entry Bid.from_entry st.bids 0 creator .sell
          (some price)).1.total_fill_size⟩).1
      (Ask.into_entry ⟨price, creator, height,
        0 - (matchOrders Bid.into_entry Bid.from_entry st.bids 0 creator .sell
          (some price)).1.total_fill_size⟩).2 st.asks =
      insertAsk ⟨price, creator, height, 0⟩ st.asks
    rw [h4.1]
    rfl

def c4Book : OrderBookState :=
  { bids := insertBid ⟨20, 5, 42, 6⟩ [], asks := insertAsk ⟨10, 3, 42, 4⟩ [] }

theorem place_zero_size_witness :
    (ZeroPlaceOk (c4Book.place_market_buy 0 9).1 ∧
      posEntries (c4Book.place_market_buy 0 9).2.asks = posEntries c4Book.asks ∧
      (c4Book.place_market_buy 0 9).2.bids = c4Book.bids) ∧
    (ZeroPlaceOk (c4Book.place_market_sell 0 9).1 ∧
      posEntries (c4Book.place_market_sell 0 9).2.bids = posEntries c4Book.bids ∧
      (c4Book.place_market_sell 0 9).2.asks = c4Book.asks) ∧
    (ZeroPlaceOk (c4Book.place_limit_buy 0 9 15 7).1 ∧
      posEntries (c4Book.place_limit_buy 0 9 15 7).2.asks = posEntries c4Book.asks ∧
      (c4Book.place_limit_buy 0 9 15 7).2.bids =
        insertBid ⟨15, 9, 7, 0⟩ c4Book.bids) ∧
    (ZeroPlaceOk (c4Book.place_limit_sell 0 9 15 7).1 ∧
      posEntries (c4Book.place_limit_sell 0 9 15 7).2.bids = posEntries c4Book.bids ∧
      (c4Book.place_limit_sell 0 9 15 7).2.asks =
        insertAsk ⟨15, 9, 7, 0⟩ c4Book.asks) :=
  place_zero_size c4Book 9 15 7
    (by simp [c4Book, SortedEntries, insertBid, Bid.into_entry, mapInsert])
    (by simp [c4Book, SortedEntries, insertAsk, Ask.into_entry, mapInsert])
    (by decide)

end Nomic
